import Mathlib

/-!
Verification development for the reddit-intent-leads pipeline
(`reddit_intent_leads/reddit.py`, `scoring.py`, `cli.py`).

The Python source is shallowly embedded: pure functions become Lean
functions, JSON decoding is resolved at the boundary into structured
records, floating point arithmetic is modelled by `ℚ`, and the effectful
fetch layer is modelled by explicit state passing over an abstract
network-outcome stream.
-/

namespace RedditLeads

/-! ## Intent scoring engine (`scoring.py`)

Each rule pattern in the source has the shape `\b(alt1|alt2|...)\b` with the
`re.I` flag, where every alternative begins and ends with a word character.
`re.search` succeeds exactly when some alternative occurs at some position of
the text, case-insensitively, with no word character directly before or after
the occurrence.  The matcher below implements exactly that semantics over the
character list of the text. -/

/-- A `\w` word character of the rule patterns: ASCII letter, digit or underscore. -/
def isWordChar (c : Char) : Bool := c.isAlphanum || c == '_'

/-- Case-insensitive prefix test: does the pattern alternative start the text?
On success, returns the remaining text after the matched prefix. -/
def startsWithCI : List Char → List Char → Option (List Char)
  | [], rest => some rest
  | _ :: _, [] => none
  | p :: ps, c :: cs => if p.toLower == c.toLower then startsWithCI ps cs else none

/-- One alternative of a `\b(...)\b` pattern matches at the current position:
the previous character (tracked by `prevIsWord`) is not a word character, the
alternative occurs here case-insensitively, and the character following the
occurrence (if any) is not a word character. -/
def altMatchesHere (alt text : List Char) (prevIsWord : Bool) : Bool :=
  if prevIsWord then false
  else
    match startsWithCI alt text with
    | none => false
    | some [] => true
    | some (c :: _) => !isWordChar c

/-- Scan the text left to right, testing every alternative at every position. -/
def searchAux (alts : List (List Char)) : Bool → List Char → Bool
  | _, [] => false
  | prevW, c :: cs =>
      alts.any (fun a => altMatchesHere a (c :: cs) prevW) || searchAux alts (isWordChar c) cs

/-- `rx.search(text)` (as a Boolean) for a rule pattern `\b(alt1|alt2|...)\b`
compiled with `re.I`. -/
def ruleSearch (alts : List (List Char)) (text : String) : Bool :=
  searchAux alts false text.toList

/-- The apostrophe character, used inside pattern literals and sample texts. -/
def apos : Char := Char.ofNat 39

/-- One lexical rule of the scorer: a name, the alternatives of its pattern,
and its weight. -/
structure IntentRule where
  name : String
  alts : List (List Char)
  weight : ℚ
  deriving DecidableEq

/-- `_INTENT_RULES` from `scoring.py`: the positive-weight rules, in table order. -/
def INTENT_RULES : List IntentRule :=
  [ ⟨"looking_for", ["looking for".toList, "need".toList, "seeking".toList, "want".toList], 2⟩,
    ⟨"recommend", ["recommend".toList, "recommendation".toList, "any suggestions".toList, "suggest".toList], 3/2⟩,
    ⟨"alternative", ["alternative".toList, "replacement".toList, "instead of".toList], 2⟩,
    ⟨"pricing", ["price".toList, "pricing".toList, "expensive".toList, "too expensive".toList, "budget".toList], 1⟩,
    ⟨"demo_trial", ["trial".toList, "demo".toList, "free trial".toList], 4/5⟩,
    ⟨"b2b_words", ["crm".toList, "pipeline".toList, "lead".toList, "prospect".toList, "invoic".toList, "quote".toList, "proposal".toList, "client".toList], 4/5⟩ ]

/-- `_NEGATIVE_RULES` from `scoring.py`: the negative-weight rules, in table order. -/
def NEGATIVE_RULES : List IntentRule :=
  [ ⟨"rant", ["rant".toList, "vent".toList], -(4/5)⟩,
    ⟨"no_buy", ["not buying".toList, "won".toList ++ [apos] ++ "t buy".toList, "never pay".toList], -(3/2)⟩ ]

/-- Result of the scorer: a score and the names of the rules that fired. -/
structure IntentResult where
  score : ℚ
  signals : List String
  deriving DecidableEq

/-- One pass of the accumulation loops of `score_intent`: for each rule in
order, if its pattern matches the text, add its weight to the running score
and append its name to the signals. -/
def applyRules (text : String) : List IntentRule → ℚ → List String → ℚ × List String
  | [], s, sig => (s, sig)
  | r :: rs, s, sig =>
      if ruleSearch r.alts text then applyRules text rs (s + r.weight) (sig ++ [r.name])
      else applyRules text rs s sig

/-- `score_intent` from `scoring.py`: accumulate over the positive rules, then
the negative rules, then floor the score at zero. -/
def score_intent (text : String) : IntentResult :=
  let p := applyRules text INTENT_RULES 0 []
  let q := applyRules text NEGATIVE_RULES p.1 p.2
  { score := if q.1 < 0 then 0 else q.1, signals := q.2 }

/-- The rules (positive then negative, in table order) whose pattern matches. -/
def matchedRules (text : String) : List IntentRule :=
  (INTENT_RULES ++ NEGATIVE_RULES).filter (fun r => ruleSearch r.alts text)

/-- The raw (un-floored) sum of the weights of every rule that matches. -/
def rawSum (text : String) : ℚ :=
  ((matchedRules text).map IntentRule.weight).sum

/-- The sample text `"I need a CRM alternative, but I'm not buying"`. -/
def crmText : String :=
  "I need a CRM alternative, but I" ++ String.mk [apos] ++ "m not buying"

/-- The sample text `"just a rant, not buying"`. -/
def rantText : String := "just a rant, not buying"

/-- `applyRules` adds exactly the weights of the matching rules and appends
exactly their names, in rule order. -/
theorem applyRules_eq (text : String) (rs : List IntentRule) (s : ℚ) (sig : List String) :
    applyRules text rs s sig =
      (s + ((rs.filter (fun r => ruleSearch r.alts text)).map IntentRule.weight).sum,
       sig ++ (rs.filter (fun r => ruleSearch r.alts text)).map IntentRule.name) := by
  induction rs generalizing s sig with
  | nil => simp [applyRules]
  | cons r rs ih =>
      by_cases h : ruleSearch r.alts text = true
      · simp [applyRules, h, ih, List.filter_cons, add_assoc]
      · simp only [Bool.not_eq_true] at h
        simp [applyRules, h, ih, List.filter_cons]

/-- Characterization of `score_intent`: the score is the raw weight sum floored
at zero, and the signals are the names of the matching rules in table order. -/
theorem score_intent_eq (text : String) :
    score_intent text =
      { score := if rawSum text < 0 then 0 else rawSum text,
        signals := (matchedRules text).map IntentRule.name } := by
  simp [score_intent, applyRules_eq, rawSum, matchedRules, List.filter_append]

/-! ## Cached fetcher (`http_get_json` in `reddit.py`)

The network is abstracted as a stream of per-attempt outcomes, and the random
draws as explicit jitter streams; sleeping and issuing a request are recorded
in an explicit state.  Floating point delays are idealised as `ℚ`. -/

/-- Outcome of one network attempt: a parsed payload, an HTTP 429 rate-limit
error, or any other failure (network error, non-2xx status, malformed JSON). -/
inductive NetOutcome (α : Type) where
  | ok (v : α)
  | rate429
  | fail

/-- Why a fetch ultimately failed: the last HTTP 429 error after all attempts
were exhausted, or a non-rate-limit error propagated immediately. -/
inductive FetchFail where
  | rateLimited
  | other
  deriving DecidableEq

/-- Result of the `for attempt in range(1, 6)` retry loop: the propagated
result, the number of network attempts issued, and the backoff delays slept,
in order. -/
structure RetryResult (α : Type) where
  result : Except FetchFail α
  attempts : Nat
  backoffs : List ℚ

/-- The retry loop of `http_get_json`.  `outs k` is the outcome of the `k`-th
attempt (1-based) and `jit k` the `random.uniform(0.0, 1.0)` draw after the
`k`-th attempt.  A success or a non-429 failure ends the loop at once; a 429
sleeps `min(60, (sleep_s*5) * 2^(attempt-1))` plus the jitter and retries. -/
def retryGo (outs : Nat → NetOutcome α) (jit : Nat → ℚ) (sleep_s : ℚ) :
    (attempt remaining : Nat) → List ℚ → RetryResult α
  | attempt, 0, ds => ⟨.error .rateLimited, attempt - 1, ds⟩
  | attempt, remaining + 1, ds =>
      match outs attempt with
      | .ok v => ⟨.ok v, attempt, ds⟩
      | .fail => ⟨.error .other, attempt, ds⟩
      | .rate429 =>
          retryGo outs jit sleep_s (attempt + 1) remaining
            (ds ++ [min 60 ((sleep_s * 5) * 2 ^ (attempt - 1)) + jit attempt])

/-- The whole retry loop: up to 5 attempts, starting at attempt 1. -/
def httpRetry (outs : Nat → NetOutcome α) (jit : Nat → ℚ) (sleep_s : ℚ) : RetryResult α :=
  retryGo outs jit sleep_s 1 5 []

/-- Random draws and network behaviour visible to one `http_get_json` call. -/
structure FetchEnv (α : Type) where
  outs : Nat → NetOutcome α
  backJit : Nat → ℚ
  politeJit : ℚ

/-- State threaded through the fetch layer: the on-disk cache (newest entry
first; a lookup finds the most recent write for a key), the number of network
attempts issued, and every sleep performed, in order. -/
structure FetchState (α : Type) where
  cache : List (String × α)
  netCalls : Nat
  sleeps : List ℚ

/-- Look up a cache file by name. -/
def cacheLookup (key : String) : List (String × α) → Option α
  | [] => none
  | (k, v) :: rest => if k = key then some v else cacheLookup key rest

/-- `http_get_json`, with explicit state.  `hashFn` models the `_sha1` hex
digest of the URL (an external library call; it is an arbitrary deterministic
function here).  On a cache hit the cached value is returned with no network
call and no sleep.  Otherwise the retry loop runs; a success is written to the
cache (when caching is on) and followed by the jittered politeness sleep
`max(0.0, sleep_s) + uniform(0.0, sleep_s * 0.3)`. -/
def http_get_json (hashFn : String → String) (env : FetchEnv α) (url : String)
    (useCache : Bool) (sleep_s : ℚ) (st : FetchState α) :
    Except FetchFail α × FetchState α :=
  let key := hashFn url ++ ".json"
  match (if useCache then cacheLookup key st.cache else none) with
  | some v => (.ok v, st)
  | none =>
      let r := httpRetry env.outs env.backJit sleep_s
      match r.result with
      | .ok v =>
          (.ok v,
            { cache := if useCache then (key, v) :: st.cache else st.cache,
              netCalls := st.netCalls + r.attempts,
              sleeps := st.sleeps ++ r.backoffs ++ [max 0 sleep_s + env.politeJit] })
      | .error e =>
          (.error e,
            { cache := st.cache,
              netCalls := st.netCalls + r.attempts,
              sleeps := st.sleeps ++ r.backoffs })

/-! ## Search crawler (`search_posts` in `reddit.py`)

Pages are decoded at the boundary into structured records: `data.children`
becomes a list of post records (with `created_utc` already defaulted to 0 when
absent, as `int(d.get("created_utc") or 0)` does) and `data.after` the next
cursor.  The per-community fetch is abstracted as a deterministic function of
the cursor; `.error` is a fetch that raises.  The unbounded `while` loop is
driven by explicit fuel, `none` meaning the fuel ran out before the loop
finished (so that non-termination is observable). -/

/-- One raw post record, as consumed by the crawler. -/
structure PostData where
  created_utc : Int
  payload : String
  deriving DecidableEq

/-- One decoded search page. -/
structure Page where
  children : List PostData
  after : Option String
  deriving DecidableEq

/-- Python truthiness of the `after` cursor: `None` and `""` are falsy. -/
def cursorTruthy : Option String → Bool
  | none => false
  | some s => !s.isEmpty

/-- The `for ch in children` loop of `search_posts`: skip records older than
`after_utc`, append the rest, and break as soon as `limit` is reached (checked
right after each append). -/
def processChildren (after_utc : Int) (limit : Nat) : List PostData → List PostData → List PostData
  | [], out => out
  | ch :: rest, out =>
      if ch.created_utc < after_utc then processChildren after_utc limit rest out
      else
        let out1 := out ++ [ch]
        if limit ≤ out1.length then out1
        else processChildren after_utc limit rest out1

/-- Outcome of one iteration of the pagination loop for one community. -/
inductive LoopStep where
  | done (out : List PostData)
  | next (cursor : Option String) (out : List PostData)
  deriving DecidableEq

/-- One iteration of the `while len(out) < limit` pagination loop: check the
guard, fetch the page at the current cursor (a failure ends the community),
stop on a page with no records, process the records, and continue only when
the server provides a truthy next cursor. -/
def subStep (fetchPage : Option String → Except Unit Page) (after_utc : Int) (limit : Nat)
    (cursor : Option String) (out : List PostData) : LoopStep :=
  if limit ≤ out.length then .done out
  else
    match fetchPage cursor with
    | .error _ => .done out
    | .ok page =>
        if page.children.isEmpty then .done out
        else
          let out1 := processChildren after_utc limit page.children out
          if cursorTruthy page.after then .next page.after out1
          else .done out1

/-- The fuel-driven pagination loop for one community, starting from a cursor. -/
def subLoop (fetchPage : Option String → Except Unit Page) (after_utc : Int) (limit : Nat) :
    Nat → Option String → List PostData → Option (List PostData)
  | 0, _, _ => none
  | fuel + 1, cursor, out =>
      match subStep fetchPage after_utc limit cursor out with
      | .done o => some o
      | .next c o => subLoop fetchPage after_utc limit fuel c o

/-- The `for sub in subs` loop of `search_posts`: each community paginates
from a fresh `after = None`, accumulating into the shared `out`. -/
def searchGo (server : String → Option String → Except Unit Page) (after_utc : Int)
    (limit : Nat) (fuel : Nat) : List String → List PostData → Option (List PostData)
  | [], out => some out
  | sub :: rest, out =>
      match subLoop (server sub) after_utc limit fuel none out with
      | none => none
      | some out1 => searchGo server after_utc limit fuel rest out1

/-- `search_posts`: run every community, then truncate to `limit` (`out[:limit]`). -/
def search_posts (server : String → Option String → Except Unit Page) (after_utc : Int)
    (limit : Nat) (subs : List String) (fuel : Nat) : Option (List PostData) :=
  (searchGo server after_utc limit fuel subs []).map (fun out => out.take limit)

/-- A stop condition of the pagination loop holds at this cursor: the fetch
fails, the page has no records, or there is no truthy next cursor. -/
def haltsNow (fetchPage : Option String → Except Unit Page) (cursor : Option String) : Prop :=
  match fetchPage cursor with
  | .error _ => True
  | .ok page => page.children.isEmpty = true ∨ cursorTruthy page.after = false

/-- The cursor the server chains to from this cursor (when it chains at all). -/
def nextCursor (fetchPage : Option String → Except Unit Page) (cursor : Option String) :
    Option String :=
  match fetchPage cursor with
  | .error _ => cursor
  | .ok page => page.after

/-- The server's cursor stream from `cursor` reaches a stop condition within
`n` chaining steps. -/
def haltsWithin (fetchPage : Option String → Except Unit Page) : Nat → Option String → Prop
  | 0, cursor => haltsNow fetchPage cursor
  | n + 1, cursor => haltsNow fetchPage cursor ∨ haltsWithin fetchPage n (nextCursor fetchPage cursor)

/-! ## Comment tree walker (`fetch_comments` in `reddit.py`)

Nodes of the reply tree are decoded at the boundary: a node of kind `t1`
carries its fields and the (possibly empty) `replies.data.children` list, a
node of kind `more` is a continuation marker.  The thread resource is either
not a JSON list, or a list whose elements each decode to the `data.children`
node list of their listing. -/

/-- Python `str.strip()`: remove leading and trailing whitespace. -/
def pyStrip (s : String) : String :=
  ⟨((s.toList.dropWhile Char.isWhitespace).reverse.dropWhile Char.isWhitespace).reverse⟩

/-- One node of the comment listing. -/
inductive CNode where
  | comment (id author : String) (created_utc score : Int) (body : String) (replies : List CNode)
  | more

/-- One flattened comment record produced by the walker. -/
structure RawComment where
  id : String
  author : String
  created_utc : Int
  score : Int
  body : String
  deriving DecidableEq

/-- The recursive `walk` of `fetch_comments`.  For each node in order: a `t1`
node appends its stripped body when non-empty and returns the moment the
accumulated count reaches `max_comments` (checked right after the append and
right after walking the node's non-empty replies, exactly as in the source);
`more` nodes are skipped without fetching anything. -/
def walk (maxC : Nat) : List CNode → List RawComment → List RawComment
  | [], out => out
  | .more :: rest, out => walk maxC rest out
  | .comment i a c s body replies :: rest, out =>
      if (pyStrip body).isEmpty then
        if replies.isEmpty then walk maxC rest out
        else
          if maxC ≤ (walk maxC replies out).length then walk maxC replies out
          else walk maxC rest (walk maxC replies out)
      else
        if maxC ≤ (out ++ [RawComment.mk i a c s (pyStrip body)]).length then
          out ++ [RawComment.mk i a c s (pyStrip body)]
        else if replies.isEmpty then
          walk maxC rest (out ++ [RawComment.mk i a c s (pyStrip body)])
        else
          if maxC ≤ (walk maxC replies (out ++ [RawComment.mk i a c s (pyStrip body)])).length then
            walk maxC replies (out ++ [RawComment.mk i a c s (pyStrip body)])
          else walk maxC rest (walk maxC replies (out ++ [RawComment.mk i a c s (pyStrip body)]))
  termination_by nodes _ => sizeOf nodes

/-- The thread resource returned by the fetch, after boundary decoding. -/
inductive ThreadResource where
  | notAList
  | list (elems : List (List CNode))

/-- `fetch_comments`: a failed fetch yields `[]`; a resource that is not a
list, or a list with fewer than 2 elements, yields `[]`; otherwise walk the
children of the second element and truncate to `max_comments`. -/
def fetch_comments (fetched : Except FetchFail ThreadResource) (maxC : Nat) : List RawComment :=
  match fetched with
  | .error _ => []
  | .ok .notAList => []
  | .ok (.list elems) =>
      if elems.length < 2 then []
      else (walk maxC (elems.getD 1 []) []).take maxC

/-- The unbounded depth-first pre-order flattening of a node list: each `t1`
comment with non-empty stripped body, then its flattened replies, then the
flattened remaining siblings; `more` nodes contribute nothing. -/
def preorder : List CNode → List RawComment
  | [] => []
  | .more :: rest => preorder rest
  | .comment i a c s body replies :: rest =>
      (if (pyStrip body).isEmpty then [] else [⟨i, a, c, s, pyStrip body⟩]) ++
        preorder replies ++ preorder rest
  termination_by nodes => sizeOf nodes

/-! ## Lead aggregation and ranking (`cli.py`, `scan`)

`leads.sort(key=lambda x: (x.intent_score, x.score), reverse=True)` is
Python's stable sort, descending on the composite key; with `reverse=True`
elements with equal keys still keep their original order.  The unique stable
descending sort is realised here by insertion sort. -/

/-- The Lead record of `reddit.py` (float modelled as `ℚ`). -/
structure Lead where
  kind : String
  subreddit : String
  title : String
  author : String
  created_utc : Int
  score : Int
  url : String
  text : String
  intent_score : ℚ
  signals : List String
  deriving DecidableEq

/-- The sort key `(x.intent_score, x.score)`. -/
def leadKey (l : Lead) : ℚ × Int := (l.intent_score, l.score)

/-- Python tuple comparison `<` on sort keys: strict lexicographic order. -/
def keyLt (a b : ℚ × Int) : Prop := a.1 < b.1 ∨ (a.1 = b.1 ∧ a.2 < b.2)

instance (a b : ℚ × Int) : Decidable (keyLt a b) := by
  unfold keyLt
  exact inferInstance

/-- Insert a lead below every already-placed lead whose key is not strictly
smaller: later-inserted leads go after equal keys, which makes the sort stable. -/
def insertDesc (x : Lead) : List Lead → List Lead
  | [] => [x]
  | y :: ys => if keyLt (leadKey y) (leadKey x) then x :: y :: ys else y :: insertDesc x ys

/-- The stable descending sort of the leads by `(intent_score, score)`. -/
def sortLeads (leads : List Lead) : List Lead :=
  leads.foldl (fun acc x => insertDesc x acc) []

/-! ## Theorems about the scoring engine -/

theorem matched_names_rant :
    (matchedRules rantText).map IntentRule.name = ["rant", "no_buy"] := rfl

theorem matched_weights_rant :
    (matchedRules rantText).map IntentRule.weight = [-(4/5), -(3/2)] := rfl

theorem rawSum_rant : rawSum rantText = -(23/10) := by
  rw [rawSum, matched_weights_rant]
  norm_num

theorem matched_names_crm :
    (matchedRules crmText).map IntentRule.name =
      ["looking_for", "alternative", "b2b_words", "no_buy"] := rfl

theorem matched_weights_crm :
    (matchedRules crmText).map IntentRule.weight = [2, 2, 4/5, -(3/2)] := rfl

theorem rawSum_crm : rawSum crmText = 33/10 := by
  rw [rawSum, matched_weights_crm]
  norm_num

/-- C4: for every input text, if the sum of the weights of all matched
positive and negative rules is negative, `score_intent` returns exactly score
0 while the matched negative rules' names still appear in the signals; in
particular scoring `"just a rant, not buying"` gives score 0 with signals
`[rant, no_buy]`. -/
theorem C4_negative_sum_floors_to_zero_keeping_signals :
    (∀ text : String, rawSum text < 0 →
        (score_intent text).score = 0 ∧
        ∀ r ∈ NEGATIVE_RULES, ruleSearch r.alts text = true →
          r.name ∈ (score_intent text).signals) ∧
    score_intent rantText = { score := 0, signals := ["rant", "no_buy"] } := by
  constructor
  · intro text h
    rw [score_intent_eq]
    refine ⟨by simp [h], ?_⟩
    intro r hr hfire
    exact List.mem_map_of_mem _
      (List.mem_filter.mpr ⟨List.mem_append_right _ hr, by simp [hfire]⟩)
  · rw [score_intent_eq, rawSum_rant, matched_names_rant, if_pos (by norm_num)]

/-- C4 witness: the general statement applied at the concrete rant text. -/
theorem C4_witness :
    rawSum rantText < 0 ∧
    (score_intent rantText).score = 0 ∧ "no_buy" ∈ (score_intent rantText).signals := by
  have hneg : rawSum rantText < 0 := by rw [rawSum_rant]; norm_num
  have h := C4_negative_sum_floors_to_zero_keeping_signals.1 rantText hneg
  refine ⟨hneg, h.1, h.2 ⟨"no_buy", ["not buying".toList, "won".toList ++ [apos] ++ "t buy".toList, "never pay".toList], -(3/2)⟩ ?_ ?_⟩
  · simp [NEGATIVE_RULES]
  · rfl

/-- C5 counterexample: at the explicit input `"just a rant, not buying"` the
returned score is not the sum of the matched rules' weights (the sum is
-23/10, the score is 0), so the claim fails as stated for every text. -/
theorem C5_counterexample :
    ¬ (score_intent rantText).score = rawSum rantText := by
  rw [score_intent_eq, rawSum_rant]
  norm_num

/-- C5 amended: for every input text, the signals are the names of exactly the
rules whose pattern matches, in fixed table order (positive rules in listed
order, then negative rules in listed order), each rule firing at most once;
and the score equals the sum of the matched rules' weights whenever that sum
is nonnegative (a negative sum is floored to 0).  In particular scoring
`"I need a CRM alternative, but I'm not buying"` gives signals
`[looking_for, alternative, b2b_words, no_buy]` and score 33/10. -/
theorem C5_amended_score_is_sum_when_nonnegative :
    (∀ text : String,
        (score_intent text).signals = (matchedRules text).map IntentRule.name ∧
        (score_intent text).signals.Nodup ∧
        (0 ≤ rawSum text → (score_intent text).score = rawSum text)) ∧
    score_intent crmText =
      { score := 33/10, signals := ["looking_for", "alternative", "b2b_words", "no_buy"] } := by
  constructor
  · intro text
    rw [score_intent_eq]
    refine ⟨rfl, ?_, ?_⟩
    · have hsub : List.Sublist ((matchedRules text).map IntentRule.name)
          ((INTENT_RULES ++ NEGATIVE_RULES).map IntentRule.name) :=
        (List.filter_sublist _).map IntentRule.name
      exact List.Nodup.sublist hsub (by decide)
    · intro h
      simp only [not_lt.mpr h, if_neg (not_lt.mpr h)]
      simp [not_lt.mpr h]
  · rw [score_intent_eq, rawSum_crm, matched_names_crm, if_neg (by norm_num)]

/-- C5 witness: the amended statement applied at the concrete CRM text. -/
theorem C5_witness :
    0 ≤ rawSum crmText ∧ (score_intent crmText).score = rawSum crmText := by
  have h : 0 ≤ rawSum crmText := by rw [rawSum_crm]; norm_num
  exact ⟨h, (C5_amended_score_is_sum_when_nonnegative.1 crmText).2.2 h⟩

/-- The weight sum over any sub-selection of rules is at most the sum of the
positive parts of all weights. -/
theorem sum_filter_weights_le (p : IntentRule → Bool) (rs : List IntentRule) :
    (((rs.filter p).map IntentRule.weight).sum) ≤ (rs.map (fun r => max 0 r.weight)).sum := by
  induction rs with
  | nil => simp
  | cons r rs ih =>
      rw [List.filter_cons]
      by_cases h : p r
      · simp only [h, if_pos]
        simp only [List.map_cons, List.sum_cons]
        exact add_le_add (le_max_right 0 r.weight) ih
      · simp only [h, Bool.false_eq_true, if_neg, not_false_iff]
        simp only [List.map_cons, List.sum_cons]
        exact le_add_of_nonneg_of_le (le_max_left 0 r.weight) ih

/-- C10: for every input text, the returned score is at most 81/10 (the sum of
all positive rule weights) and the signals list has at most 8 entries. -/
theorem C10_score_at_most_81_tenths_signals_at_most_8 :
    ∀ text : String,
      (score_intent text).score ≤ 81/10 ∧ (score_intent text).signals.length ≤ 8 := by
  intro text
  rw [score_intent_eq]
  constructor
  · have h1 : rawSum text ≤ 81/10 := by
      have h := sum_filter_weights_le (fun r => ruleSearch r.alts text)
        (INTENT_RULES ++ NEGATIVE_RULES)
      have h2 : ((INTENT_RULES ++ NEGATIVE_RULES).map (fun r => max 0 r.weight)).sum
          = 81/10 := by
        rw [INTENT_RULES, NEGATIVE_RULES]
        norm_num [List.map_cons, List.sum_cons]
      rw [rawSum, matchedRules]
      rw [h2] at h
      exact h
    by_cases hneg : rawSum text < 0
    · simp only [if_pos hneg]
      norm_num
    · simpa only [if_neg hneg] using h1
  · simp only [List.length_map]
    calc (matchedRules text).length
        ≤ (INTENT_RULES ++ NEGATIVE_RULES).length := List.length_filter_le _ _
      _ = 8 := rfl

/-! ## Theorems about the cached fetcher -/

/-- The backoff delay slept after the `k`-th rate-limited attempt, before its
retry: `min(60, (sleep_s*5) * 2^(k-1))` plus the jitter drawn for attempt `k`. -/
def backoffAt (jit : Nat → ℚ) (d : ℚ) (k : Nat) : ℚ :=
  min 60 ((d * 5) * 2 ^ (k - 1)) + jit k

theorem retryGo_attempts_le {α : Type} (outs : Nat → NetOutcome α) (jit : Nat → ℚ) (d : ℚ) :
    ∀ (rem att : Nat) (ds : List ℚ),
      (retryGo outs jit d att rem ds).attempts ≤ att + rem - 1 := by
  intro rem
  induction rem with
  | zero => intro att ds; simp [retryGo]
  | succ rem ih =>
      intro att ds
      rw [retryGo]
      cases houts : outs att with
      | ok v => simp only; omega
      | fail => simp only; omega
      | rate429 =>
          simp only
          calc (retryGo outs jit d (att + 1) rem _).attempts
              ≤ att + 1 + rem - 1 := ih (att + 1) _
            _ ≤ att + (rem + 1) - 1 := by omega

/-- If the attempts from `att` up to `k` are rate-limited and attempt `k`
succeeds, the loop returns at attempt `k` with one backoff slept per
rate-limited attempt. -/
theorem retryGo_ok {α : Type} (outs : Nat → NetOutcome α) (jit : Nat → ℚ) (d : ℚ) :
    ∀ (rem att k : Nat) (ds : List ℚ) (v : α),
      att ≤ k → k < att + rem → outs k = .ok v →
      (∀ j, att ≤ j → j < k → outs j = .rate429) →
      retryGo outs jit d att rem ds =
        ⟨.ok v, k, ds ++ (List.range' att (k - att)).map (backoffAt jit d)⟩ := by
  intro rem
  induction rem with
  | zero => intro att k ds v h1 h2 _ _; omega
  | succ rem ih =>
      intro att k ds v h1 h2 hk h429
      by_cases heq : att = k
      · subst heq
        rw [retryGo, hk]
        simp
      · have hlt : att < k := lt_of_le_of_ne h1 heq
        have hatt : outs att = .rate429 := h429 att le_rfl hlt
        rw [retryGo, hatt]
        simp only
        rw [ih (att + 1) k _ v hlt (by omega) hk
          (fun j hj1 hj2 => h429 j (by omega) hj2)]
        have hm : k - att = (k - (att + 1)) + 1 := by omega
        rw [hm, List.range'_succ, List.map_cons]
        simp [backoffAt]

/-- If the attempts from `att` up to `k` are rate-limited and attempt `k`
fails with a non-429 error, that error propagates at attempt `k` at once,
with no further backoff. -/
theorem retryGo_fail {α : Type} (outs : Nat → NetOutcome α) (jit : Nat → ℚ) (d : ℚ) :
    ∀ (rem att k : Nat) (ds : List ℚ),
      att ≤ k → k < att + rem → outs k = .fail →
      (∀ j, att ≤ j → j < k → outs j = .rate429) →
      retryGo outs jit d att rem ds =
        ⟨.error .other, k, ds ++ (List.range' att (k - att)).map (backoffAt jit d)⟩ := by
  intro rem
  induction rem with
  | zero => intro att k ds h1 h2 _ _; omega
  | succ rem ih =>
      intro att k ds h1 h2 hk h429
      by_cases heq : att = k
      · subst heq
        rw [retryGo, hk]
        simp
      · have hlt : att < k := lt_of_le_of_ne h1 heq
        have hatt : outs att = .rate429 := h429 att le_rfl hlt
        rw [retryGo, hatt]
        simp only
        rw [ih (att + 1) k _ hlt (by omega) hk
          (fun j hj1 hj2 => h429 j (by omega) hj2)]
        have hm : k - att = (k - (att + 1)) + 1 := by omega
        rw [hm, List.range'_succ, List.map_cons]
        simp [backoffAt]

/-- If every attempt in the window is rate-limited, the loop exhausts its
attempts (sleeping after each one, the last included) and propagates the
rate-limit error. -/
theorem retryGo_exhaust {α : Type} (outs : Nat → NetOutcome α) (jit : Nat → ℚ) (d : ℚ) :
    ∀ (rem att : Nat) (ds : List ℚ),
      (∀ j, att ≤ j → j < att + rem → outs j = .rate429) →
      retryGo outs jit d att rem ds =
        ⟨.error .rateLimited, att + rem - 1,
          ds ++ (List.range' att rem).map (backoffAt jit d)⟩ := by
  intro rem
  induction rem with
  | zero => intro att ds _; simp [retryGo]
  | succ rem ih =>
      intro att ds h429
      have hatt : outs att = .rate429 := h429 att le_rfl (by omega)
      rw [retryGo, hatt]
      simp only
      rw [ih (att + 1) _ (fun j hj1 hj2 => h429 j (by omega) (by omega))]
      rw [List.range'_succ, List.map_cons]
      have : att + 1 + rem - 1 = att + (rem + 1) - 1 := by omega
      simp [backoffAt, this]

/-- C2: in the cached fetcher, only an HTTP 429 response is retried, with at
most 5 attempts total; the delay slept after the `k`-th rate-limited attempt
(before its retry) is `min(60, 5*politeDelay * 2^(k-1))` plus the jitter
drawn for that attempt, which stays within `[0, 1]` of the deterministic part
when the jitter is in `[0, 1]`; any other failure propagates immediately at
the attempt where it occurs, with no further retry; and five rate-limited
attempts in a row propagate the last (rate-limit) error. -/
theorem C2_retry_only_on_429_with_exponential_backoff {α : Type}
    (outs : Nat → NetOutcome α) (jit : Nat → ℚ) (d : ℚ) :
    ((httpRetry outs jit d).attempts ≤ 5) ∧
    (∀ k v, 1 ≤ k → k ≤ 5 → outs k = .ok v →
      (∀ j, 1 ≤ j → j < k → outs j = .rate429) →
      httpRetry outs jit d =
        ⟨.ok v, k, (List.range' 1 (k - 1)).map (backoffAt jit d)⟩) ∧
    (∀ k, 1 ≤ k → k ≤ 5 → outs k = .fail →
      (∀ j, 1 ≤ j → j < k → outs j = .rate429) →
      httpRetry outs jit d =
        ⟨.error .other, k, (List.range' 1 (k - 1)).map (backoffAt jit d)⟩) ∧
    ((∀ j, 1 ≤ j → j ≤ 5 → outs j = .rate429) →
      httpRetry outs jit d =
        ⟨.error .rateLimited, 5, (List.range' 1 5).map (backoffAt jit d)⟩) ∧
    (∀ k, 0 ≤ jit k → jit k ≤ 1 →
      min 60 ((d * 5) * 2 ^ (k - 1)) ≤ backoffAt jit d k ∧
      backoffAt jit d k ≤ min 60 ((d * 5) * 2 ^ (k - 1)) + 1) := by
  refine ⟨?_, ?_, ?_, ?_, ?_⟩
  · exact retryGo_attempts_le outs jit d 5 1 []
  · intro k v h1 h5 hk h429
    rw [httpRetry, retryGo_ok outs jit d 5 1 k [] v h1 (by omega) hk h429]
    simp
  · intro k h1 h5 hk h429
    rw [httpRetry, retryGo_fail outs jit d 5 1 k [] h1 (by omega) hk h429]
    simp
  · intro h429
    rw [httpRetry, retryGo_exhaust outs jit d 5 1 [] (fun j hj1 hj2 => h429 j hj1 (by omega))]
    simp
  · intro k hj0 hj1
    constructor
    · simp [backoffAt, hj0]
    · simp [backoffAt, hj1]

/-- C2 witness: a network that rate-limits attempt 1 and succeeds on attempt
2, with zero jitter and base delay 1, returns the payload at attempt 2 after
a single backoff of `min(60, 5) = 5` seconds. -/
theorem C2_witness :
    httpRetry (fun k => if k = 1 then NetOutcome.rate429 else NetOutcome.ok "payload")
        (fun _ => 0) 1 =
      ⟨.ok "payload", 2, [(5 : ℚ)]⟩ := by
  have h := (C2_retry_only_on_429_with_exponential_backoff
      (fun k => if k = 1 then NetOutcome.rate429 else NetOutcome.ok "payload")
      (fun _ => 0) 1).2.1 2 "payload" (by omega) (by omega) (by simp)
      (by
        intro j hj1 hj2
        have : j = 1 := by omega
        simp [this])
  rw [h]
  norm_num [backoffAt, List.range']

/-- C6 part one, as a standalone lemma: a cache hit returns the cached value
and leaves the state untouched — no network attempt, no sleep, no cache write. -/
theorem http_get_json_cache_hit {α : Type} (hashFn : String → String) (env : FetchEnv α)
    (url : String) (d : ℚ) (st : FetchState α) (v : α)
    (h : cacheLookup (hashFn url ++ ".json") st.cache = some v) :
    http_get_json hashFn env url true d st = (.ok v, st) := by
  rw [http_get_json]
  simp [h]

/-- On a cache miss with a successful retry loop, `http_get_json` returns the
fetched value, writes it to the cache, counts the attempts, and sleeps the
backoffs followed by the jittered politeness delay. -/
theorem http_get_json_cache_miss_success {α : Type} (hashFn : String → String)
    (env : FetchEnv α) (url : String) (d : ℚ) (st : FetchState α) (w : α)
    (hc : cacheLookup (hashFn url ++ ".json") st.cache = none)
    (hr : (httpRetry env.outs env.backJit d).result = .ok w) :
    http_get_json hashFn env url true d st =
      (.ok w,
        { cache := (hashFn url ++ ".json", w) :: st.cache,
          netCalls := st.netCalls + (httpRetry env.outs env.backJit d).attempts,
          sleeps := st.sleeps ++ (httpRetry env.outs env.backJit d).backoffs
            ++ [max 0 d + env.politeJit] }) := by
  rw [http_get_json]
  simp [hc, hr]

/-- C6: with caching on, a cache hit for the URL's hash key returns the parsed
cached contents with no network request and no delay (the state is unchanged);
and whenever a fetch of a URL succeeds, immediately refetching the same URL —
even against an arbitrarily different network (`env'`) — returns the identical
value and leaves the state unchanged: zero network calls and zero sleeps on
the second fetch, regardless of server-side drift. -/
theorem C6_cache_hit_bypasses_network_and_delay {α : Type} (hashFn : String → String)
    (env env' : FetchEnv α) (url : String) (d d' : ℚ) (st : FetchState α) :
    (∀ v, cacheLookup (hashFn url ++ ".json") st.cache = some v →
      http_get_json hashFn env url true d st = (.ok v, st)) ∧
    (∀ v, (http_get_json hashFn env url true d st).1 = .ok v →
      http_get_json hashFn env' url true d' (http_get_json hashFn env url true d st).2 =
        (.ok v, (http_get_json hashFn env url true d st).2)) := by
  constructor
  · intro v h
    exact http_get_json_cache_hit hashFn env url d st v h
  · intro v hok
    cases hc : cacheLookup (hashFn url ++ ".json") st.cache with
    | some w =>
        rw [http_get_json_cache_hit hashFn env url d st w hc] at hok ⊢
        have hwv : w = v := by simpa using hok
        subst hwv
        exact http_get_json_cache_hit hashFn env' url d' st w hc
    | none =>
        cases hr : (httpRetry env.outs env.backJit d).result with
        | error e =>
            rw [http_get_json] at hok
            simp [hc, hr] at hok
        | ok w =>
            have h1 := http_get_json_cache_miss_success hashFn env url d st w hc hr
            rw [h1] at hok ⊢
            have hwv : w = v := by simpa using hok
            subst hwv
            apply http_get_json_cache_hit
            simp [cacheLookup]

/-- C6 witness: a concrete first fetch that succeeds over the network, after
which refetching the same URL against a network that would now fail still
returns the cached value with the state unchanged. -/
theorem C6_witness :
    http_get_json (fun _ => "h") ⟨fun _ => NetOutcome.fail, fun _ => 0, 0⟩ "u" true 1
        ((http_get_json (fun _ => "h") ⟨fun _ => NetOutcome.ok 42, fun _ => 0, 0⟩ "u" true 1
          ⟨[], 0, []⟩).2) =
      (.ok 42,
        (http_get_json (fun _ => "h") ⟨fun _ => NetOutcome.ok 42, fun _ => 0, 0⟩ "u" true 1
          ⟨[], 0, []⟩).2) := by
  exact (C6_cache_hit_bypasses_network_and_delay (fun _ => "h")
    ⟨fun _ => NetOutcome.ok 42, fun _ => 0, 0⟩ ⟨fun _ => NetOutcome.fail, fun _ => 0, 0⟩
    "u" 1 1 ⟨[], 0, []⟩).2 42 rfl

/-! ## Theorems about the search crawler -/

/-- `processChildren` appends exactly the records that pass the time-window
floor, up to the remaining capacity: filtering, not truncation-on-first-old. -/
theorem processChildren_eq (a : Int) (l : Nat) :
    ∀ (children out : List PostData), out.length < l →
      processChildren a l children out =
        out ++ (children.filter (fun p => decide (a ≤ p.created_utc))).take (l - out.length) := by
  intro children
  induction children with
  | nil => intro out _; simp [processChildren]
  | cons ch rest ih =>
      intro out hlen
      by_cases hold : ch.created_utc < a
      · have hdec : (decide (a ≤ ch.created_utc)) = false := by
          simp [not_le.mpr hold]
        simp only [processChildren, if_pos hold, List.filter_cons, hdec,
          Bool.false_eq_true, if_neg, not_false_iff]
        exact ih out hlen
      · have hdec : (decide (a ≤ ch.created_utc)) = true := by
          simp [not_lt.mp hold]
        have hrem : l - out.length = (l - (out.length + 1)) + 1 := by omega
        simp only [processChildren, if_neg hold, List.filter_cons, hdec, if_pos]
        by_cases hfull : l ≤ (out ++ [ch]).length
        · have h1 : l - out.length = 1 := by
            simp only [List.length_append, List.length_singleton] at hfull
            omega
          simp only [if_pos hfull, h1, List.take_succ_cons, List.take_zero]
        · simp only [if_neg hfull]
          have hlen1 : (out ++ [ch]).length < l := lt_of_not_le hfull
          rw [ih (out ++ [ch]) hlen1, hrem, List.take_succ_cons]
          simp [List.length_append]


/-- Records accumulated by `processChildren` satisfy the time-window floor if
the accumulator does. -/
theorem processChildren_inv (a : Int) (l : Nat) :
    ∀ (children out : List PostData), (∀ p ∈ out, a ≤ p.created_utc) →
      ∀ p ∈ processChildren a l children out, a ≤ p.created_utc := by
  intro children
  induction children with
  | nil => intro out hinv; simpa [processChildren] using hinv
  | cons ch rest ih =>
      intro out hinv
      by_cases hold : ch.created_utc < a
      · simp only [processChildren, if_pos hold]
        exact ih out hinv
      · have hinv1 : ∀ p ∈ out ++ [ch], a ≤ p.created_utc := by
          intro p hp
          rcases List.mem_append.mp hp with h | h
          · exact hinv p h
          · rcases List.mem_singleton.mp h with rfl
            exact not_lt.mp hold
        simp only [processChildren, if_neg hold]
        split
        · exact hinv1
        · exact ih (out ++ [ch]) hinv1

theorem subStep_done_inv (fp : Option String → Except Unit Page) (a : Int) (l : Nat)
    (cursor : Option String) (out o : List PostData)
    (hstep : subStep fp a l cursor out = .done o)
    (hinv : ∀ p ∈ out, a ≤ p.created_utc) : ∀ p ∈ o, a ≤ p.created_utc := by
  unfold subStep at hstep
  split at hstep
  · injection hstep with h
    subst h
    exact hinv
  · split at hstep
    · injection hstep with h
      subst h
      exact hinv
    · split at hstep
      · injection hstep with h
        subst h
        exact hinv
      · split at hstep
        · cases hstep
        · injection hstep with h
          subst h
          exact processChildren_inv a l _ out hinv

theorem subStep_next_inv (fp : Option String → Except Unit Page) (a : Int) (l : Nat)
    (cursor : Option String) (out o : List PostData) (c : Option String)
    (hstep : subStep fp a l cursor out = .next c o)
    (hinv : ∀ p ∈ out, a ≤ p.created_utc) : ∀ p ∈ o, a ≤ p.created_utc := by
  unfold subStep at hstep
  split at hstep
  · cases hstep
  · split at hstep
    · cases hstep
    · split at hstep
      · cases hstep
      · split at hstep
        · injection hstep with h1 h2
          subst h2
          exact processChildren_inv a l _ out hinv
        · cases hstep

theorem subLoop_inv (fp : Option String → Except Unit Page) (a : Int) (l : Nat) :
    ∀ (fuel : Nat) (cursor : Option String) (out r : List PostData),
      (∀ p ∈ out, a ≤ p.created_utc) →
      subLoop fp a l fuel cursor out = some r →
      ∀ p ∈ r, a ≤ p.created_utc := by
  intro fuel
  induction fuel with
  | zero => intro cursor out r _ h; cases h
  | succ fuel ih =>
      intro cursor out r hinv hsome
      rw [subLoop] at hsome
      cases hstep : subStep fp a l cursor out with
      | done o =>
          rw [hstep] at hsome
          injection hsome with h
          subst h
          exact subStep_done_inv fp a l cursor out _ hstep hinv
      | next c o =>
          rw [hstep] at hsome
          exact ih c o r (subStep_next_inv fp a l cursor out o c hstep hinv) hsome

theorem searchGo_inv (server : String → Option String → Except Unit Page) (a : Int)
    (l : Nat) (fuel : Nat) :
    ∀ (subs : List String) (out r : List PostData),
      (∀ p ∈ out, a ≤ p.created_utc) →
      searchGo server a l fuel subs out = some r →
      ∀ p ∈ r, a ≤ p.created_utc := by
  intro subs
  induction subs with
  | nil =>
      intro out r hinv hsome
      rw [searchGo] at hsome
      injection hsome with h
      subst h
      exact hinv
  | cons sub rest ih =>
      intro out r hinv hsome
      rw [searchGo] at hsome
      cases hl : subLoop (server sub) a l fuel none out with
      | none => rw [hl] at hsome; cases hsome
      | some out1 =>
          rw [hl] at hsome
          exact ih out1 r (subLoop_inv (server sub) a l fuel none out out1 hinv hl) hsome

/-- C8: a record with `created_utc < afterEpoch` never appears in the crawler
output, wherever it sits in its page; and per page the loop keeps exactly the
records passing the floor, up to the remaining capacity — an old record is
skipped, it does not end the page scan or the pagination. -/
theorem C8_old_records_skipped_not_terminating :
    (∀ (server : String → Option String → Except Unit Page) (a : Int) (l : Nat)
        (subs : List String) (fuel : Nat) (out : List PostData),
      search_posts server a l subs fuel = some out →
      ∀ p ∈ out, a ≤ p.created_utc) ∧
    (∀ (a : Int) (l : Nat) (children out : List PostData), out.length < l →
      processChildren a l children out =
        out ++ (children.filter (fun p => decide (a ≤ p.created_utc))).take (l - out.length)) := by
  constructor
  · intro server a l subs fuel out hsome p hp
    rw [search_posts] at hsome
    rcases Option.map_eq_some'.mp hsome with ⟨r, hr, hout⟩
    subst hout
    exact searchGo_inv server a l fuel subs [] r (by simp) hr p (List.mem_of_mem_take hp)
  · intro a l children out hlen
    exact processChildren_eq a l children out hlen

/-- C8 witness: with the floor at 10 and limit 3, a page whose first record is
too old and whose second is recent keeps only the recent one — the old record
is skipped without ending the scan. -/
theorem C8_witness :
    processChildren 10 3 [⟨5, "old"⟩, ⟨15, "new"⟩] [] = [⟨15, "new"⟩] := by
  rw [C8_old_records_skipped_not_terminating.2 10 3 [⟨5, "old"⟩, ⟨15, "new"⟩] [] (by decide)]
  rfl

theorem subLoop_mono (fp : Option String → Except Unit Page) (a : Int) (l : Nat) :
    ∀ (fuel fuel' : Nat) (cursor : Option String) (out r : List PostData),
      fuel ≤ fuel' → subLoop fp a l fuel cursor out = some r →
      subLoop fp a l fuel' cursor out = some r := by
  intro fuel
  induction fuel with
  | zero => intro fuel' cursor out r _ h; cases h
  | succ fuel ih =>
      intro fuel' cursor out r hle hsome
      rcases Nat.exists_eq_add_of_le hle with ⟨k, hk⟩
      subst hk
      rw [subLoop] at hsome
      have hre : fuel + 1 + k = (fuel + k) + 1 := by omega
      rw [hre, subLoop]
      cases hstep : subStep fp a l cursor out with
      | done o =>
          rw [hstep] at hsome
          exact hsome
      | next c o =>
          rw [hstep] at hsome
          exact ih (fuel + k) c o r (by omega) hsome

theorem subStep_done_of_haltsNow (fp : Option String → Except Unit Page) (a : Int) (l : Nat)
    (cursor : Option String) (out : List PostData) (h : haltsNow fp cursor) :
    ∃ o, subStep fp a l cursor out = .done o := by
  unfold haltsNow at h
  unfold subStep
  by_cases hl : l ≤ out.length
  · exact ⟨out, by rw [if_pos hl]⟩
  · rw [if_neg hl]
    cases hfp : fp cursor with
    | error e => exact ⟨out, rfl⟩
    | ok page =>
        rw [hfp] at h
        by_cases hemp : page.children.isEmpty = true
        · exact ⟨out, by simp [hemp]⟩
        · have htr : cursorTruthy page.after = false := by
            rcases h with h | h
            · exact absurd h hemp
            · exact h
          exact ⟨processChildren a l page.children out, by simp [hemp, htr]⟩

theorem subStep_next_nextCursor (fp : Option String → Except Unit Page) (a : Int) (l : Nat)
    (cursor c : Option String) (out o : List PostData)
    (hstep : subStep fp a l cursor out = .next c o) : nextCursor fp cursor = c := by
  unfold subStep at hstep
  split at hstep
  · cases hstep
  · split at hstep
    · cases hstep
    · rename_i page heq
      split at hstep
      · cases hstep
      · split at hstep
        · injection hstep with h1 h2
          unfold nextCursor
          rw [heq]
          exact h1
        · cases hstep

/-- If the server's cursor stream from `cursor` reaches a stop condition
within `n` steps, the pagination loop finishes within `n + 1` iterations. -/
theorem subLoop_halts (fp : Option String → Except Unit Page) (a : Int) (l : Nat) :
    ∀ (n : Nat) (cursor : Option String) (out : List PostData),
      haltsWithin fp n cursor → ∃ r, subLoop fp a l (n + 1) cursor out = some r := by
  intro n
  induction n with
  | zero =>
      intro cursor out h
      rcases subStep_done_of_haltsNow fp a l cursor out h with ⟨o, ho⟩
      exact ⟨o, by rw [subLoop, ho]⟩
  | succ n ih =>
      intro cursor out h
      rcases h with h | h
      · rcases subStep_done_of_haltsNow fp a l cursor out h with ⟨o, ho⟩
        exact ⟨o, by rw [subLoop, ho]⟩
      · rw [subLoop]
        cases hstep : subStep fp a l cursor out with
        | done o => exact ⟨o, rfl⟩
        | next c o =>
            rw [subStep_next_nextCursor fp a l cursor c out o hstep] at h
            exact ih c o h

theorem searchGo_mono (server : String → Option String → Except Unit Page) (a : Int)
    (l : Nat) :
    ∀ (subs : List String) (fuel fuel' : Nat) (out r : List PostData),
      fuel ≤ fuel' → searchGo server a l fuel subs out = some r →
      searchGo server a l fuel' subs out = some r := by
  intro subs
  induction subs with
  | nil => intro fuel fuel' out r _ h; exact h
  | cons sub rest ih =>
      intro fuel fuel' out r hle hsome
      rw [searchGo] at hsome
      rw [searchGo]
      cases hl : subLoop (server sub) a l fuel none out with
      | none => rw [hl] at hsome; cases hsome
      | some out1 =>
          rw [hl] at hsome
          rw [subLoop_mono (server sub) a l fuel fuel' none out out1 hle hl]
          exact ih fuel fuel' out1 r hle hsome

/-- If every community's cursor stream eventually reaches a stop condition,
some fuel completes the whole crawl. -/
theorem searchGo_halts (server : String → Option String → Except Unit Page) (a : Int)
    (l : Nat) :
    ∀ (subs : List String),
      (∀ sub ∈ subs, ∃ n, haltsWithin (server sub) n none) →
      ∀ out, ∃ fuel r, searchGo server a l fuel subs out = some r := by
  intro subs
  induction subs with
  | nil => intro _ out; exact ⟨1, out, rfl⟩
  | cons sub rest ih =>
      intro h out
      rcases h sub (List.mem_cons_self sub rest) with ⟨n, hn⟩
      rcases subLoop_halts (server sub) a l n none out hn with ⟨r1, hr1⟩
      rcases ih (fun s hs => h s (List.mem_cons_of_mem sub hs)) r1 with ⟨f2, r2, hr2⟩
      refine ⟨max (n + 1) f2, r2, ?_⟩
      rw [searchGo]
      rw [subLoop_mono (server sub) a l (n + 1) (max (n + 1) f2) none out r1
        (le_max_left _ _) hr1]
      exact searchGo_mono server a l rest f2 (max (n + 1) f2) r1 r2 (le_max_right _ _) hr2

/-- C1 amended: `search_posts` never returns more than `limit` items, and it
terminates whenever, for each community, the server's cursor stream from the
start eventually fails, returns a page with no records, or provides no truthy
next cursor.  (A merely repeating cursor does not guarantee termination: see
the counterexample, where every page repeats the cursor but carries only
records older than the time floor, and the loop never exits.) -/
theorem C1_amended_cap_and_termination :
    (∀ (server : String → Option String → Except Unit Page) (a : Int) (l : Nat)
        (subs : List String) (fuel : Nat) (out : List PostData),
      search_posts server a l subs fuel = some out → out.length ≤ l) ∧
    (∀ (server : String → Option String → Except Unit Page) (a : Int) (l : Nat)
        (subs : List String),
      (∀ sub ∈ subs, ∃ n, haltsWithin (server sub) n none) →
      ∃ fuel r, search_posts server a l subs fuel = some r) := by
  constructor
  · intro server a l subs fuel out hsome
    rw [search_posts] at hsome
    rcases Option.map_eq_some'.mp hsome with ⟨r, _, hout⟩
    subst hout
    rw [List.length_take]
    exact min_le_left l r.length
  · intro server a l subs h
    rcases searchGo_halts server a l subs h [] with ⟨fuel, r, hr⟩
    exact ⟨fuel, r.take l, by rw [search_posts, hr, Option.map_some']⟩

/-- A server that always answers with one stale record and the repeating
cursor `"X"`. -/
def badFetch : Option String → Except Unit Page :=
  fun _ => .ok ⟨[⟨0, "stale"⟩], some "X"⟩

def badServer : String → Option String → Except Unit Page := fun _ => badFetch

theorem badLoop_none : ∀ (n : Nat) (cursor : Option String),
    subLoop badFetch 100 1 n cursor [] = none := by
  intro n
  induction n with
  | zero => intro cursor; rfl
  | succ n ih =>
      intro cursor
      rw [subLoop]
      have hstep : subStep badFetch 100 1 cursor [] = .next (some "X") [] := rfl
      rw [hstep]
      exact ih (some "X")

/-- C1 counterexample: against `badFetch` the cursor stream repeats (`"X"`
forever), so the claim's termination hypothesis holds, yet the pagination
loop maps its reachable states to themselves — the run is a self-loop — and
the crawl does not finish within any amount of fuel (1000 shown here): the
claim that a repeating cursor guarantees termination is false on the code. -/
theorem C1_counterexample_repeating_cursor_loops_forever :
    nextCursor badFetch none = some "X" ∧
    nextCursor badFetch (some "X") = some "X" ∧
    subStep badFetch 100 1 none [] = .next (some "X") [] ∧
    subStep badFetch 100 1 (some "X") [] = .next (some "X") [] ∧
    search_posts badServer 100 1 ["c"] 1000 = none := by
  refine ⟨rfl, rfl, rfl, rfl, ?_⟩
  rw [search_posts, searchGo]
  rw [show subLoop (badServer "c") 100 1 1000 none [] = none from badLoop_none 1000 none]
  rfl

/-- C1 witness: a server that answers every community with a single recent
record and no next cursor satisfies the stop hypothesis, so the crawl
terminates. -/
theorem C1_witness :
    (∀ sub ∈ (["a", "b"] : List String),
      ∃ n, haltsWithin ((fun _ _ => .ok ⟨[⟨5, "p"⟩], none⟩ :
        String → Option String → Except Unit Page) sub) n none) ∧
    ∃ fuel r, search_posts (fun _ _ => .ok ⟨[⟨5, "p"⟩], none⟩) 0 1 ["a", "b"] fuel = some r := by
  have hhalts : ∀ sub ∈ (["a", "b"] : List String),
      ∃ n, haltsWithin ((fun _ _ => .ok ⟨[⟨5, "p"⟩], none⟩ :
        String → Option String → Except Unit Page) sub) n none := by
    intro sub _
    exact ⟨0, Or.inr rfl⟩
  exact ⟨hhalts, C1_amended_cap_and_termination.2 _ 0 1 ["a", "b"] hhalts⟩

/-- C7: fetch failures are swallowed locally.  A failed page fetch ends that
community's pagination with the posts collected so far; a community whose
fetches always fail is transparent to the whole crawl; and `fetch_comments`
returns `[]` on a failed fetch, on a non-list resource, and on a list with
fewer than two elements. -/
theorem C7_fetch_errors_swallowed_locally :
    (∀ (fetchPage : Option String → Except Unit Page) (a : Int) (l : Nat)
        (cursor : Option String) (out : List PostData),
      fetchPage cursor = .error () → subStep fetchPage a l cursor out = .done out) ∧
    (∀ (server : String → Option String → Except Unit Page) (a : Int) (l : Nat)
        (l1 l2 : List String) (bad : String) (fuel : Nat),
      (∀ cur, server bad cur = .error ()) → 1 ≤ fuel →
      search_posts server a l (l1 ++ bad :: l2) fuel = search_posts server a l (l1 ++ l2) fuel) ∧
    (∀ (e : FetchFail) (maxC : Nat), fetch_comments (.error e) maxC = []) ∧
    (∀ maxC : Nat, fetch_comments (.ok .notAList) maxC = []) ∧
    (∀ (elems : List (List CNode)) (maxC : Nat), elems.length < 2 →
      fetch_comments (.ok (.list elems)) maxC = []) := by
  refine ⟨?_, ?_, ?_, ?_, ?_⟩
  · intro fetchPage a l cursor out h
    unfold subStep
    rw [h]
    split <;> rfl
  · intro server a l l1 l2 bad fuel hbad hfuel
    rw [search_posts, search_posts]
    suffices h : ∀ (l1 : List String) (out : List PostData),
        searchGo server a l fuel (l1 ++ bad :: l2) out = searchGo server a l fuel (l1 ++ l2) out by
      rw [h l1 []]
    intro l1
    induction l1 with
    | nil =>
        intro out
        rcases Nat.exists_eq_add_of_le hfuel with ⟨k, hk⟩
        subst hk
        rw [List.nil_append, List.nil_append, searchGo]
        have hstep : subStep (server bad) a l none out = .done out := by
          unfold subStep
          rw [hbad none]
          split <;> rfl
        have hre : 1 + k = k + 1 := by omega
        rw [hre, subLoop, hstep]
    | cons s l1 ih =>
        intro out
        rw [List.cons_append, List.cons_append, searchGo, searchGo]
        cases hl : subLoop (server s) a l fuel none out with
        | none => rfl
        | some out1 => exact ih out1
  · intro e maxC; rfl
  · intro maxC; rfl
  · intro elems maxC h
    rw [fetch_comments, if_pos h]

/-- C7 witness: one always-failing community in the middle of the scan leaves
the crawl result unchanged. -/
theorem C7_witness :
    search_posts
        (fun sub _ => if sub = "bad" then .error () else .ok ⟨[⟨5, "p"⟩], none⟩)
        0 10 ["good", "bad"] 3 =
      search_posts
        (fun sub _ => if sub = "bad" then .error () else .ok ⟨[⟨5, "p"⟩], none⟩)
        0 10 ["good"] 3 := by
  have h := C7_fetch_errors_swallowed_locally.2.1
    (fun sub _ => if sub = "bad" then .error () else .ok ⟨[⟨5, "p"⟩], none⟩)
    0 10 ["good"] [] "bad" 3 (fun cur => by simp) (by omega)
  simpa using h

/-! ## Theorems about the comment tree walker -/

/-- `walk` emits the depth-first pre-order flattening, cut off at `maxC`. -/
theorem walk_eq_take (maxC : Nat) :
    ∀ (nodes : List CNode) (out : List RawComment), out.length < maxC →
      walk maxC nodes out = (out ++ preorder nodes).take maxC := by
  intro nodes out
  induction nodes, out using walk.induct maxC with
  | case1 out =>
      intro hlen
      rw [walk, preorder, List.append_nil]
      exact (List.take_of_length_le (le_of_lt hlen)).symm
  | case2 rest out ih =>
      intro hlen
      rw [walk, preorder]
      exact ih hlen
  | case3 i a c s body replies rest out hb hrep ih =>
      intro hlen
      obtain rfl : replies = [] := List.isEmpty_iff.mp hrep
      rw [walk, if_pos hb, if_pos List.isEmpty_nil, preorder, if_pos hb, preorder]
      simp only [List.nil_append]
      exact ih hlen
  | case4 i a c s body replies rest out hb hrep hfull ih =>
      intro hlen
      rw [walk, if_pos hb, if_neg hrep, if_pos hfull, preorder, if_pos hb]
      simp only [List.nil_append]
      rw [ih hlen] at hfull ⊢
      have hge : maxC ≤ (out ++ preorder replies).length := by
        rw [List.length_take] at hfull
        omega
      rw [← List.append_assoc]
      exact (List.take_append_of_le_length hge).symm
  | case5 i a c s body replies rest out hb hrep hfull ih1 ih2 =>
      intro hlen
      rw [walk, if_pos hb, if_neg hrep, if_neg hfull, preorder, if_pos hb]
      simp only [List.nil_append]
      rw [ih1 hlen] at hfull ih2 ⊢
      have hlt : (out ++ preorder replies).length < maxC := by
        rw [List.length_take] at hfull
        omega
      rw [List.take_of_length_le (le_of_lt hlt)] at hfull ih2 ⊢
      rw [ih2 hlt, List.append_assoc]
  | case6 i a c s body replies rest out hb hfull =>
      intro hlen
      rw [walk, if_neg hb, if_pos hfull, preorder, if_neg hb]
      have hm : maxC = out.length + 1 := by
        simp only [List.length_append, List.length_singleton] at hfull
        omega
      have h1 : maxC ≤ (out ++ [RawComment.mk i a c s (pyStrip body)]).length := by
        simp [hm]
      rw [show out ++ ([RawComment.mk i a c s (pyStrip body)] ++ preorder replies ++
            preorder rest) =
          (out ++ [RawComment.mk i a c s (pyStrip body)]) ++
            (preorder replies ++ preorder rest) by simp]
      rw [List.take_append_of_le_length h1]
      exact (List.take_of_length_le (by simp [hm])).symm
  | case7 i a c s body replies rest out hb hfull hrep ih =>
      intro hlen
      obtain rfl : replies = [] := List.isEmpty_iff.mp hrep
      rw [walk, if_neg hb, if_neg hfull, if_pos List.isEmpty_nil, preorder, if_neg hb, preorder]
      have hlen1 : (out ++ [RawComment.mk i a c s (pyStrip body)]).length < maxC := by
        simp only [List.length_append, List.length_singleton] at hfull ⊢
        omega
      rw [ih hlen1]
      simp [List.append_assoc]
  | case8 i a c s body replies rest out hb hfull hrep hfull2 ih =>
      intro hlen
      rw [walk, if_neg hb, if_neg hfull, if_neg hrep, if_pos hfull2, preorder, if_neg hb]
      have hlen1 : (out ++ [RawComment.mk i a c s (pyStrip body)]).length < maxC := by
        simp only [List.length_append, List.length_singleton] at hfull ⊢
        omega
      rw [ih hlen1] at hfull2 ⊢
      have hge : maxC ≤
          ((out ++ [RawComment.mk i a c s (pyStrip body)]) ++ preorder replies).length := by
        rw [List.length_take] at hfull2
        omega
      rw [show out ++ ([RawComment.mk i a c s (pyStrip body)] ++ preorder replies ++
            preorder rest) =
          ((out ++ [RawComment.mk i a c s (pyStrip body)]) ++ preorder replies) ++
            preorder rest by simp]
      exact (List.take_append_of_le_length hge).symm
  | case9 i a c s body replies rest out hb hfull hrep hfull2 ih1 ih2 =>
      intro hlen
      rw [walk, if_neg hb, if_neg hfull, if_neg hrep, if_neg hfull2, preorder, if_neg hb]
      have hlen1 : (out ++ [RawComment.mk i a c s (pyStrip body)]).length < maxC := by
        simp only [List.length_append, List.length_singleton] at hfull ⊢
        omega
      rw [ih1 hlen1] at hfull2 ih2 ⊢
      have hlt : ((out ++ [RawComment.mk i a c s (pyStrip body)]) ++ preorder replies).length
          < maxC := by
        rw [List.length_take] at hfull2
        omega
      rw [List.take_of_length_le (le_of_lt hlt)] at hfull2 ih2 ⊢
      rw [ih2 hlt]
      simp [List.append_assoc]

/-- The comment tree `A → [B, C]`, `B → [D]` of the spec's flattening example. -/
def nodeD : CNode := .comment "d" "u" 0 0 "D" []

def nodeB : CNode := .comment "b" "u" 0 0 "B" [nodeD]

def nodeC : CNode := .comment "c" "u" 0 0 "C" []

def nodeA : CNode := .comment "a" "u" 0 0 "A" [nodeB, nodeC]

theorem stripA : pyStrip "A" = "A" := rfl

theorem stripB : pyStrip "B" = "B" := rfl

theorem stripC : pyStrip "C" = "C" := rfl

theorem stripD : pyStrip "D" = "D" := rfl

/-- C3: `fetch_comments` flattens the reply tree in depth-first pre-order
(non-empty-body comments before their children, `more` nodes skipped), and the
output is exactly the pre-order flattening truncated the instant the count
reaches `maxComments`; in particular for the tree `A → [B, C]`, `B → [D]` the
output is `[A, B, D, C]`, and with `maxComments = 2` it is `[A, B]`. -/
theorem C3_depth_first_preorder_truncated_at_max :
    (∀ (maxC : Nat) (elems : List (List CNode)), 2 ≤ elems.length →
      fetch_comments (.ok (.list elems)) maxC = (preorder (elems.getD 1 [])).take maxC) ∧
    fetch_comments (.ok (.list [[], [nodeA]])) 10 =
      [⟨"a", "u", 0, 0, "A"⟩, ⟨"b", "u", 0, 0, "B"⟩, ⟨"d", "u", 0, 0, "D"⟩, ⟨"c", "u", 0, 0, "C"⟩] ∧
    fetch_comments (.ok (.list [[], [nodeA]])) 2 =
      [⟨"a", "u", 0, 0, "A"⟩, ⟨"b", "u", 0, 0, "B"⟩] := by
  have hgen : ∀ (maxC : Nat) (elems : List (List CNode)), 2 ≤ elems.length →
      fetch_comments (.ok (.list elems)) maxC = (preorder (elems.getD 1 [])).take maxC := by
    intro maxC elems h2
    rw [fetch_comments, if_neg (not_lt.mpr h2)]
    rcases Nat.eq_zero_or_pos maxC with h0 | hpos
    · subst h0
      simp
    · rw [walk_eq_take maxC _ [] (by simpa using hpos), List.nil_append,
        List.take_take, min_self]
  have hpre : preorder [nodeA] =
      [⟨"a", "u", 0, 0, "A"⟩, ⟨"b", "u", 0, 0, "B"⟩, ⟨"d", "u", 0, 0, "D"⟩, ⟨"c", "u", 0, 0, "C"⟩] := by
    rw [nodeA, nodeB, nodeC, nodeD]
    simp [preorder, stripA, stripB, stripC, stripD,
      show ("A" : String).isEmpty = false from rfl,
      show ("B" : String).isEmpty = false from rfl,
      show ("C" : String).isEmpty = false from rfl,
      show ("D" : String).isEmpty = false from rfl]
  refine ⟨hgen, ?_, ?_⟩
  · rw [hgen 10 [[], [nodeA]] (by decide)]
    simp [hpre]
  · rw [hgen 2 [[], [nodeA]] (by decide)]
    simp [hpre]

/-- C3 witness: the general flattening statement applied to the concrete
two-element thread resource. -/
theorem C3_witness :
    fetch_comments (.ok (.list [[], [nodeA]])) 5 =
      (preorder ([[], [nodeA]].getD 1 [])).take 5 :=
  C3_depth_first_preorder_truncated_at_max.1 5 [[], [nodeA]] (by decide)

/-! ## Theorems about the lead ranking -/

theorem keyLt_asymm (a b : ℚ × Int) : keyLt a b → ¬ keyLt b a := by
  intro hab hba
  rcases hab with h | ⟨he, h2⟩ <;> rcases hba with h' | ⟨he', h2'⟩
  · exact absurd h' (not_lt.mpr (le_of_lt h))
  · rw [he'] at h
    exact lt_irrefl _ h
  · rw [he] at h'
    exact lt_irrefl _ h'
  · omega

theorem keyLt_trans (a b c : ℚ × Int) : keyLt a b → keyLt b c → keyLt a c := by
  intro h1 h2
  rcases h1 with h | ⟨he, hi⟩ <;> rcases h2 with h' | ⟨he', hi'⟩
  · exact Or.inl (lt_trans h h')
  · exact Or.inl (by rw [← he']; exact h)
  · exact Or.inl (by rw [he]; exact h')
  · exact Or.inr ⟨he.trans he', by omega⟩

theorem keyLt_irrefl (a : ℚ × Int) : ¬ keyLt a a := by
  rintro (h | ⟨_, h⟩)
  · exact lt_irrefl _ h
  · omega

theorem insertDesc_perm (x : Lead) :
    ∀ l : List Lead, List.Perm (insertDesc x l) (x :: l) := by
  intro l
  induction l with
  | nil => rfl
  | cons y ys ih =>
      rw [insertDesc]
      split
      · rfl
      · exact (List.Perm.cons y ih).trans (List.Perm.swap x y ys)

theorem insertDesc_pairwise (x : Lead) :
    ∀ l : List Lead, l.Pairwise (fun a b => ¬ keyLt (leadKey a) (leadKey b)) →
      (insertDesc x l).Pairwise (fun a b => ¬ keyLt (leadKey a) (leadKey b)) := by
  intro l
  induction l with
  | nil => intro _; simp [insertDesc]
  | cons y ys ih =>
      intro h
      rcases List.pairwise_cons.mp h with ⟨hy, hys⟩
      rw [insertDesc]
      split
      · rename_i hlt
        refine List.pairwise_cons.mpr ⟨?_, h⟩
        intro z hz
        rcases List.mem_cons.mp hz with rfl | hzys
        · exact keyLt_asymm _ _ hlt
        · intro hxz
          exact hy z hzys (keyLt_trans _ _ _ hlt hxz)
      · rename_i hnlt
        refine List.pairwise_cons.mpr ⟨?_, ih hys⟩
        intro z hz
        have hz' : z ∈ x :: ys := (insertDesc_perm x ys).mem_iff.mp hz
        rcases List.mem_cons.mp hz' with rfl | hzys
        · exact hnlt
        · exact hy z hzys

/-- In a descending-sorted list headed by `y` with `keyLt (leadKey y) k`, every
element's key is strictly below `k`; in particular none equals `k`. -/
theorem sorted_head_lt (k : ℚ × Int) (y : Lead) (ys : List Lead)
    (h : (y :: ys).Pairwise (fun a b => ¬ keyLt (leadKey a) (leadKey b)))
    (hy : keyLt (leadKey y) k) :
    ∀ z ∈ y :: ys, keyLt (leadKey z) k := by
  intro z hz
  rcases List.mem_cons.mp hz with rfl | hzys
  · exact hy
  · rcases List.pairwise_cons.mp h with ⟨hge, _⟩
    have hzy : ¬ keyLt (leadKey y) (leadKey z) := hge z hzys
    rcases hy with h1 | ⟨he, h2⟩
    · rcases lt_trichotomy (leadKey z).1 (leadKey y).1 with ha | ha | ha
      · exact Or.inl (lt_trans ha h1)
      · exact Or.inl (by rw [ha]; exact h1)
      · exact absurd (Or.inl ha) hzy
    · rcases lt_trichotomy (leadKey z).1 (leadKey y).1 with ha | ha | ha
      · exact Or.inl (by rw [← he]; exact ha)
      · refine Or.inr ⟨ha.trans he, ?_⟩
        have : ¬ (leadKey z).2 > (leadKey y).2 := by
          intro hgt
          exact hzy (Or.inr ⟨ha.symm, hgt⟩)
        omega
      · exact absurd (Or.inl ha) hzy

theorem insertDesc_filter (q : ℚ × Int) (x : Lead) :
    ∀ l : List Lead, l.Pairwise (fun a b => ¬ keyLt (leadKey a) (leadKey b)) →
      (insertDesc x l).filter (fun z => decide (leadKey z = q)) =
        l.filter (fun z => decide (leadKey z = q)) ++
          (if leadKey x = q then [x] else []) := by
  intro l
  induction l with
  | nil =>
      intro _
      rw [insertDesc]
      by_cases hxq : leadKey x = q
      · simp [List.filter, hxq]
      · simp [List.filter, hxq]
  | cons y ys ih =>
      intro h
      rcases List.pairwise_cons.mp h with ⟨hy, hys⟩
      rw [insertDesc]
      split
      · rename_i hlt
        by_cases hxq : leadKey x = q
        · have hnone : (y :: ys).filter (fun z => decide (leadKey z = q)) = [] := by
            rw [List.filter_eq_nil_iff]
            intro z hz
            simp only [decide_eq_true_eq]
            intro hzq
            have := sorted_head_lt q y ys h (hxq ▸ hlt) z hz
            rw [hzq] at this
            exact keyLt_irrefl q this
          rw [List.filter_cons_of_pos (by simp [hxq]), hnone, if_pos hxq]
          simp
        · rw [List.filter_cons_of_neg (by simp [hxq]), if_neg hxq, List.append_nil]
      · rename_i hnlt
        rw [List.filter_cons, List.filter_cons, ih hys]
        by_cases hyq : leadKey y = q
        · simp [hyq]
        · simp [hyq]

theorem sortLoop_pairwise :
    ∀ (l acc : List Lead),
      acc.Pairwise (fun a b => ¬ keyLt (leadKey a) (leadKey b)) →
      (l.foldl (fun a x => insertDesc x a) acc).Pairwise
        (fun a b => ¬ keyLt (leadKey a) (leadKey b)) := by
  intro l
  induction l with
  | nil => intro acc h; exact h
  | cons x l ih =>
      intro acc h
      exact ih (insertDesc x acc) (insertDesc_pairwise x acc h)

theorem sortLoop_filter (q : ℚ × Int) :
    ∀ (l acc : List Lead),
      acc.Pairwise (fun a b => ¬ keyLt (leadKey a) (leadKey b)) →
      (l.foldl (fun a x => insertDesc x a) acc).filter (fun z => decide (leadKey z = q)) =
        acc.filter (fun z => decide (leadKey z = q)) ++
          l.filter (fun z => decide (leadKey z = q)) := by
  intro l
  induction l with
  | nil => intro acc _; simp
  | cons x l ih =>
      intro acc h
      rw [List.foldl_cons, ih (insertDesc x acc) (insertDesc_pairwise x acc h),
        insertDesc_filter q x acc h, List.filter_cons]
      by_cases hxq : leadKey x = q
      · simp [hxq]
      · simp [hxq]

theorem sortLoop_perm :
    ∀ (l acc : List Lead),
      List.Perm (l.foldl (fun a x => insertDesc x a) acc) (acc ++ l) := by
  intro l
  induction l with
  | nil => intro acc; simp
  | cons x l ih =>
      intro acc
      rw [List.foldl_cons]
      refine (ih (insertDesc x acc)).trans ?_
      refine (List.Perm.append_right l (insertDesc_perm x acc)).trans ?_
      exact List.perm_middle.symm

/-- C9: the lead ranking is the stable descending sort on the composite key
`(intent_score, karma score)`: adjacent-free pairwise order (every earlier
lead's key is not smaller than any later one — ties on intent broken by
higher karma), the selection of leads with any fixed key keeps the original
relative order (stability), the output is a permutation of the input, and the
pairwise relation spelt out on the record fields. -/
theorem C9_stable_descending_sort_by_intent_then_karma :
    ∀ leads : List Lead,
      (sortLeads leads).Pairwise (fun a b => ¬ keyLt (leadKey a) (leadKey b)) ∧
      (∀ q : ℚ × Int,
        (sortLeads leads).filter (fun z => decide (leadKey z = q)) =
          leads.filter (fun z => decide (leadKey z = q))) ∧
      List.Perm (sortLeads leads) leads ∧
      (∀ x y : Lead, ¬ keyLt (leadKey x) (leadKey y) →
        y.intent_score < x.intent_score ∨
          (y.intent_score = x.intent_score ∧ y.score ≤ x.score)) := by
  intro leads
  refine ⟨sortLoop_pairwise leads [] (by simp), ?_, ?_, ?_⟩
  · intro q
    have h := sortLoop_filter q leads [] (by simp)
    simpa [sortLeads] using h
  · have h := sortLoop_perm leads []
    simpa [sortLeads] using h
  · intro x y hxy
    unfold keyLt leadKey at hxy
    push_neg at hxy
    obtain ⟨h1, h2⟩ := hxy
    rcases lt_or_eq_of_le h1 with h | h
    · exact Or.inl h
    · exact Or.inr ⟨h, h2 h.symm⟩

/-- Two sample leads with equal intent score and different karma. -/
def leadW1 : Lead := ⟨"post", "s", "t", "a", 0, 5, "u", "x", 2, []⟩

def leadW2 : Lead := ⟨"comment", "s", "t", "b", 0, 3, "u", "y", 2, []⟩

/-- C9 witness: the tie-breaking clause applied at two concrete leads with
equal intent scores, where the one with higher karma is not key-below the
other. -/
theorem C9_witness :
    ¬ keyLt (leadKey leadW1) (leadKey leadW2) ∧
    (leadW2.intent_score < leadW1.intent_score ∨
      (leadW2.intent_score = leadW1.intent_score ∧ leadW2.score ≤ leadW1.score)) := by
  have hn : ¬ keyLt (leadKey leadW1) (leadKey leadW2) := by
    unfold keyLt leadKey leadW1 leadW2
    push_neg
    refine ⟨le_refl _, ?_⟩
    intro _
    show (3 : Int) ≤ 5
    norm_num
  exact ⟨hn,
    (C9_stable_descending_sort_by_intent_then_karma [leadW1, leadW2]).2.2.2 leadW1 leadW2 hn⟩

end RedditLeads
